import Mathlib

/-!
Verification development for the BrowsingHistoryEditor core
(`main.py`, class `BrowsingHistory`).

The Python functions under scrutiny are shallowly embedded as executable
Lean definitions.  Strings are modelled as `List Char`; wall-clock
timestamps are modelled as exact rationals (`ℚ`); the process time zone is
taken to be UTC, which makes `datetime(Y, M, D).timestamp()` the Unix time
of that calendar instant (`datetime(1601,1,1)` ↦ -11644473600 and
`datetime(2001,1,1)` ↦ 978307200, the two constants that also appear
literally in the SQL queries of `_import_data`).
-/

namespace BrowsingHistory

/-- Embedding of `BrowsingHistory._convert_timestamp` (main.py:728-744).

* `Chrome`:  `datetime(1601,1,1) + timedelta(microseconds=ts)` → Unix
  seconds `-11644473600 + ts / 10^6`;
* `IE11`:    `datetime(1601,1,1) + timedelta(microseconds=ts*0.1)` →
  `-11644473600 + ts / 10^7`;
* `Safari`:  `datetime(2001,1,1) + timedelta(seconds=ts)` →
  `978307200 + ts`;
* `Firefox`: `datetime.fromtimestamp(ts / 1000000).timestamp()` →
  `ts / 10^6`;
* fallback:  `datetime.fromtimestamp(ts).timestamp()` → `ts`. -/
def convert_timestamp (browser_name : Option String) (timestamp : ℚ) : ℚ :=
  if browser_name = some "Chrome" then
    -11644473600 + timestamp / 1000000
  else if browser_name = some "IE11" then
    -11644473600 + timestamp * (1 / 10) / 1000000
  else if browser_name = some "Safari" then
    978307200 + timestamp
  else if browser_name = some "Firefox" then
    timestamp / 1000000
  else
    timestamp

/-- Character class of the host-matching regex
`(?<=\:\/\/)[a-z0-9\.\-\:]+` in `BrowsingHistory._is_url`
(main.py:793-808). -/
def urlChar (c : Char) : Bool :=
  ('a' ≤ c && c ≤ 'z') || ('0' ≤ c && c ≤ '9') || c == '.' || c == '-' || c == ':'

/-- One lookbehind position of that regex: when the string starts with the
literal `://` followed by a character of the class, the match is the
maximal run of class characters after the `://`; otherwise no match starts
here. -/
def hostAt (l : List Char) : Option (List Char) :=
  match l with
  | c1 :: c2 :: c3 :: d :: tail =>
    if c1 = ':' ∧ c2 = '/' ∧ c3 = '/' ∧ urlChar d then
      some (d :: tail.takeWhile urlChar)
    else none
  | _ => none

/-- `re.findall(url_pattern, url)` of `_is_url`, restricted to its first
(leftmost) match: scan positions left to right and return the first match
of `(?<=\:\/\/)[a-z0-9\.\-\:]+`.  `_is_url(url, r=True)` is
`findHost url` (with `none` standing for Python's `False`), and
`_is_url(url)` is `(findHost url).isSome`. -/
def findHost : List Char → Option (List Char)
  | [] => none
  | c :: rest =>
    match hostAt (c :: rest) with
    | some h => some h
    | none => findHost rest

/-- `_is_url(url, r=False)` (main.py:793-808). -/
def is_url (url : List Char) : Bool :=
  (findHost url).isSome

/-- Python's `\w` character class (ASCII fragment): letters, digits and
underscore. -/
def wordChar (c : Char) : Bool :=
  ('a' ≤ c && c ≤ 'z') || ('A' ≤ c && c ≤ 'Z') || ('0' ≤ c && c ≤ '9') || c == '_'

/-- The literal `anonymisiert-` of the anonymized-token regex
`anonymisiert-[\w]+\-[\w]+` in `_stem_url` (main.py:768-790). -/
def litAnonym : List Char :=
  ['a', 'n', 'o', 'n', 'y', 'm', 'i', 's', 'i', 'e', 'r', 't', '-']

/-- One position of the regex `anonymisiert-[\w]+\-[\w]+`: the literal,
then a maximal nonempty `\w` run, then `-`, then a maximal nonempty `\w`
run (greedy matching never backtracks here because `-` is not a word
character). -/
def anonymAt (l : List Char) : Option (List Char) :=
  if l.take 13 = litAnonym then
    match (l.drop 13).takeWhile wordChar, (l.drop 13).dropWhile wordChar with
    | [], _ => none
    | w1h :: w1t, '-' :: rest2 =>
      match rest2.takeWhile wordChar with
      | [] => none
      | w2h :: w2t => some (litAnonym ++ (w1h :: w1t) ++ '-' :: w2h :: w2t)
    | _ :: _, _ => none
  else none

/-- `re.findall(anonym_pattern, url)` of `_stem_url`, restricted to its
first (leftmost) match. -/
def findAnonym : List Char → Option (List Char)
  | [] => none
  | c :: rest =>
    match anonymAt (c :: rest) with
    | some a => some a
    | none => findAnonym rest

/-- `stemmed_url[:4] == 'www.'` check and strip of `_stem_url`. -/
def stripWWW (s : List Char) : List Char :=
  if s.take 4 = ['w', 'w', 'w', '.'] then s.drop 4 else s

/-- `url[:-5:-1] == '***/'` of `_stem_url`: the last four characters,
reversed, equal `***/`, i.e. the string ends with `/***`. -/
def endsSlashStars (s : List Char) : Bool :=
  s.reverse.take 4 == ['*', '*', '*', '/']

/-- Embedding of `BrowsingHistory._stem_url` (main.py:768-790). -/
def stem_url (url : List Char) : List Char :=
  match findHost url with
  | some stemmed => stripWWW stemmed
  | none =>
    match findAnonym url with
    | some a => a
    | none =>
      if endsSlashStars url then url.take (url.length - 4) else url

example : stem_url "http://www.example.com/path".toList = "example.com".toList := by
  decide
example : stem_url "anonymisiert-abc-def".toList = "anonymisiert-abc-def".toList := by
  decide
example : stem_url "example.com/***".toList = "example.com".toList := by decide
example : is_url "file:///etc/passwd".toList = false := by decide
example : is_url "https://x.org/a".toList = true := by decide

theorem urlChar_ne_slash {c : Char} (h : urlChar c = true) : c ≠ '/' := by
  intro hc
  rw [hc] at h
  exact absurd h (by decide)

theorem wordChar_ne_slash {c : Char} (h : wordChar c = true) : c ≠ '/' := by
  intro hc
  rw [hc] at h
  exact absurd h (by decide)

theorem hostAt_cons4 (a b c d : Char) (tl : List Char) :
    hostAt (a :: b :: c :: d :: tl) =
      if a = ':' ∧ b = '/' ∧ c = '/' ∧ urlChar d = true then
        some (d :: tl.takeWhile urlChar)
      else none := rfl

theorem hostAt_chars {l h : List Char} (hh : hostAt l = some h) :
    ∀ c ∈ h, urlChar c = true := by
  match l with
  | [] => exact Option.noConfusion hh
  | [_] => exact Option.noConfusion hh
  | [_, _] => exact Option.noConfusion hh
  | [_, _, _] => exact Option.noConfusion hh
  | a :: b :: c :: d :: tl =>
    rw [hostAt_cons4] at hh
    split at hh
    · rename_i hcond
      injection hh with hh
      subst hh
      intro c hc
      rcases List.mem_cons.mp hc with rfl | hc
      · exact hcond.2.2.2
      · exact List.mem_takeWhile_imp hc
    · exact Option.noConfusion hh

theorem hostAt_mem_slash {l h : List Char} (hh : hostAt l = some h) : '/' ∈ l := by
  match l with
  | [] => exact Option.noConfusion hh
  | [_] => exact Option.noConfusion hh
  | [_, _] => exact Option.noConfusion hh
  | [_, _, _] => exact Option.noConfusion hh
  | a :: b :: c :: d :: tl =>
    rw [hostAt_cons4] at hh
    split at hh
    · rename_i hcond
      simp [hcond.2.1]
    · exact Option.noConfusion hh

theorem hostAt_append_none (ys : List Char) {l : List Char}
    (h : hostAt (l ++ ys) = none) : hostAt l = none := by
  match l with
  | [] => rfl
  | [_] => rfl
  | [_, _] => rfl
  | [_, _, _] => rfl
  | a :: b :: c :: d :: tl =>
    simp only [List.cons_append] at h
    rw [hostAt_cons4] at h ⊢
    split at h
    · exact absurd h (by simp)
    · rename_i hcond
      exact if_neg hcond

theorem findHost_cons (c : Char) (rest : List Char) :
    findHost (c :: rest) =
      match hostAt (c :: rest) with
      | some h => some h
      | none => findHost rest := rfl

theorem findHost_eq_none {l : List Char} (hl : ∀ c ∈ l, c ≠ '/') :
    findHost l = none := by
  induction l with
  | nil => rfl
  | cons c rest ih =>
    have h1 : hostAt (c :: rest) = none := by
      cases hh : hostAt (c :: rest) with
      | none => rfl
      | some h => exact absurd rfl (hl '/' (hostAt_mem_slash hh))
    rw [findHost_cons, h1]
    exact ih (fun c' hc' => hl c' (List.mem_cons_of_mem _ hc'))

theorem findHost_chars {l h : List Char} (hh : findHost l = some h) :
    ∀ c ∈ h, urlChar c = true := by
  induction l with
  | nil => exact absurd hh (by simp [findHost])
  | cons c rest ih =>
    rw [findHost_cons] at hh
    cases ha : hostAt (c :: rest) with
    | some h' =>
      rw [ha] at hh
      injection hh with hh
      subst hh
      exact hostAt_chars ha
    | none =>
      rw [ha] at hh
      exact ih hh

theorem findHost_append_none (ys : List Char) {xs : List Char}
    (h : findHost (xs ++ ys) = none) : findHost xs = none := by
  induction xs with
  | nil => rfl
  | cons c rest ih =>
    rw [List.cons_append, findHost_cons] at h
    have hsplit : hostAt (c :: (rest ++ ys)) = none ∧ findHost (rest ++ ys) = none := by
      cases ha : hostAt (c :: (rest ++ ys)) with
      | some h' => rw [ha] at h; exact absurd h (by simp)
      | none => rw [ha] at h; exact ⟨rfl, h⟩
    have h1 : hostAt (c :: rest) = none := by
      apply hostAt_append_none ys
      rw [List.cons_append]
      exact hsplit.1
    rw [findHost_cons, h1]
    exact ih hsplit.2

theorem anonymAt_some {l a : List Char} (h : anonymAt l = some a) :
    ∃ w1 w2 : List Char, a = litAnonym ++ w1 ++ '-' :: w2 ∧
      (∀ c ∈ w1, wordChar c = true) ∧ (∀ c ∈ w2, wordChar c = true) := by
  unfold anonymAt at h
  split at h
  · split at h
    · exact absurd h (by simp)
    · rename_i w1h w1t rest2 heq1 heq2
      split at h
      · exact absurd h (by simp)
      · rename_i w2h w2t heq3
        injection h with h
        subst h
        refine ⟨w1h :: w1t, w2h :: w2t, rfl, ?_, ?_⟩
        · intro c hc
          rw [← heq1] at hc
          exact List.mem_takeWhile_imp hc
        · intro c hc
          rw [← heq3] at hc
          exact List.mem_takeWhile_imp hc
    · exact absurd h (by simp)
  · exact absurd h (by simp)

theorem findAnonym_cons (c : Char) (rest : List Char) :
    findAnonym (c :: rest) =
      match anonymAt (c :: rest) with
      | some a => some a
      | none => findAnonym rest := rfl

theorem findAnonym_some {l a : List Char} (h : findAnonym l = some a) :
    ∃ w1 w2 : List Char, a = litAnonym ++ w1 ++ '-' :: w2 ∧
      (∀ c ∈ w1, wordChar c = true) ∧ (∀ c ∈ w2, wordChar c = true) := by
  induction l with
  | nil => exact absurd h (by simp [findAnonym])
  | cons c rest ih =>
    rw [findAnonym_cons] at h
    cases ha : anonymAt (c :: rest) with
    | some a' =>
      rw [ha] at h
      injection h with h
      subst h
      exact anonymAt_some ha
    | none =>
      rw [ha] at h
      exact ih h

/-- No value in the range of `stem_url` contains a scheme-delimiter match:
the first branch returns a run of host characters (no `/`), the second an
anonymized token (word characters and `-` only), the third a prefix of a
string that had no match, and the fourth the unchanged input that had no
match. -/
theorem findHost_stem_url (x : List Char) : findHost (stem_url x) = none := by
  unfold stem_url
  cases hh : findHost x with
  | some h =>
    simp only
    apply findHost_eq_none
    intro c hc
    have hc' : c ∈ h := by
      unfold stripWWW at hc
      split at hc
      · exact List.drop_subset _ _ hc
      · exact hc
    exact urlChar_ne_slash (findHost_chars hh c hc')
  | none =>
    cases ha : findAnonym x with
    | some a =>
      simp only
      obtain ⟨w1, w2, rfl, hw1, hw2⟩ := findAnonym_some ha
      apply findHost_eq_none
      have hlit : ∀ c ∈ litAnonym, c ≠ '/' := by decide
      intro c hc
      simp only [List.append_assoc, List.mem_append, List.mem_cons] at hc
      rcases hc with hc | hc | rfl | hc
      · exact hlit c hc
      · exact wordChar_ne_slash (hw1 c hc)
      · decide
      · exact wordChar_ne_slash (hw2 c hc)
    | none =>
      simp only
      split
      · apply findHost_append_none (x.drop (x.length - 4))
        rw [List.take_append_drop]
        exact hh
      · exact hh

/-- One joined row of
`SELECT url, visit_count, urls.id FROM urls, visits WHERE urls.id = visits.url_id`
as consumed by `BrowsingHistory.visits` (main.py:548-562):
`visit[0]` is the URL, `visit[1]` the visit count, `visit[2]` the URL
identifier. -/
structure VisitRow where
  url : List Char
  visit_count : Int
  url_id : Nat
deriving DecidableEq

/-- The mutable loop state of `visits` (main.py:553-554): the domain-total
dictionary `d` (an insertion-ordered association list with unique keys)
and the `unique_id` set (as the list of identifiers added so far). -/
structure AggState where
  d : List (List Char × Int)
  seen : List Nat
deriving DecidableEq

/-- The body of the `for visit in visits` loop of `visits`
(main.py:555-562): ensure the stemmed domain has a dictionary entry, then
add the row's `visit_count` to it only if the row's URL identifier has not
been seen before. -/
def visitsStep (st : AggState) (v : VisitRow) : AggState :=
  let dom := stem_url v.url
  let d1 := if st.d.any (fun p => p.1 == dom) then st.d else st.d ++ [(dom, 0)]
  if v.url_id ∈ st.seen then
    { d := d1, seen := st.seen }
  else
    { d := d1.map (fun p => if p.1 = dom then (p.1, p.2 + v.visit_count) else p),
      seen := v.url_id :: st.seen }

/-- The whole aggregation loop of `visits`, starting from `d = {}` and
`unique_id = set()`. -/
def visitsAgg (rows : List VisitRow) : AggState :=
  rows.foldl visitsStep ⟨[], []⟩

/-- `sum(d.values())` for an aggregation state. -/
def totalOf (st : AggState) : Int :=
  (st.d.map (fun p => p.2)).sum

/-- `total_n = sum(d.values())` (main.py:563). -/
def visitsTotal (rows : List VisitRow) : Int :=
  totalOf (visitsAgg rows)

/-- Specification helper: the visit counts the `visits` loop actually adds
to domain totals — one per distinct URL identifier, at its first
occurrence — mirroring the `unique_id` set logic of main.py:560-562. -/
def countedCounts (seen : List Nat) : List VisitRow → List Int
  | [] => []
  | r :: rest =>
    if r.url_id ∈ seen then countedCounts seen rest
    else r.visit_count :: countedCounts (r.url_id :: seen) rest

/-- The percentage-share tail of `visits` (main.py:563-573) on the
`plot=False` path, with the top-N reordering abstracted away: Python
computes `perc = [round((v / total_n) * 100, 2) for v in od.values()]`
with a true division, which raises `ZeroDivisionError` exactly when the
selected dictionary is nonempty while `total_n == 0` (the default top-25
selection is nonempty iff `d` is nonempty).  `none` models that error;
rounding is omitted. -/
def visitsPerc (rows : List VisitRow) : Option (List ℚ) :=
  let st := visitsAgg rows
  let total : Int := (st.d.map (fun p => p.2)).sum
  if st.d = [] then some []
  else if total = 0 then none
  else some (st.d.map (fun p => (p.2 : ℚ) / (total : ℚ) * 100))

example : (visitsAgg [⟨"http://a.ch/x".toList, 3, 1⟩, ⟨"http://a.ch/x".toList, 3, 1⟩,
    ⟨"http://b.ch".toList, 2, 2⟩]).d = [("a.ch".toList, 3), ("b.ch".toList, 2)] := by
  decide

/-- A value is a fixpoint of `stem_url` as soon as it has no
scheme-delimiter match, no anonymized-token match other than itself, and
does not end in `/***`. -/
theorem stem_url_fixpoint {y : List Char} (hh : findHost y = none)
    (ha : findAnonym y = none ∨ findAnonym y = some y)
    (he : endsSlashStars y = false) : stem_url y = y := by
  unfold stem_url
  rw [hh]
  simp only
  rcases ha with ha | ha
  · rw [ha]
    simp [he]
  · rw [ha]

theorem visitsStep_stable {st : AggState} {v : VisitRow}
    (hany : st.d.any (fun p => p.1 == stem_url v.url) = true)
    (hseen : v.url_id ∈ st.seen) : visitsStep st v = st := by
  unfold visitsStep
  simp [hany, hseen]

theorem foldl_visitsStep_stable (u : List Char) (c : Int) (i : Nat)
    (rest : List VisitRow) (hall : ∀ r ∈ rest, r = ⟨u, c, i⟩) (st : AggState)
    (hany : st.d.any (fun p => p.1 == stem_url u) = true) (hseen : i ∈ st.seen) :
    rest.foldl visitsStep st = st := by
  induction rest with
  | nil => rfl
  | cons r rs ih =>
    have hr : r = ⟨u, c, i⟩ := hall r (List.mem_cons_self _ _)
    subst hr
    rw [List.foldl_cons, visitsStep_stable hany hseen]
    exact ih (fun q hq => hall q (List.mem_cons_of_mem _ hq))

theorem visitsStep_seen (st : AggState) (v : VisitRow) :
    (visitsStep st v).seen =
      if v.url_id ∈ st.seen then st.seen else v.url_id :: st.seen := by
  unfold visitsStep
  by_cases hs : v.url_id ∈ st.seen <;> simp [hs]

theorem sum_map_snd_d1 (d : List (List Char × Int)) (dom : List Char) :
    (((if d.any (fun p => p.1 == dom) then d else d ++ [(dom, 0)]).map
        (fun p => p.2)).sum : Int) = (d.map (fun p => p.2)).sum := by
  by_cases ha : d.any (fun p => p.1 == dom) <;> simp [ha]

theorem mem_d1 {d : List (List Char × Int)} {dom : List Char} {p : List Char × Int}
    (hp : p ∈ (if d.any (fun q => q.1 == dom) then d else d ++ [(dom, 0)])) :
    p ∈ d ∨ p = (dom, 0) := by
  by_cases ha : d.any (fun q => q.1 == dom) <;> simp [ha] at hp <;> tauto

theorem d1_ne_nil {d : List (List Char × Int)} {dom : List Char} :
    (if d.any (fun q => q.1 == dom) then d else d ++ [(dom, 0)]) ≠ [] := by
  by_cases ha : d.any (fun q => q.1 == dom)
  · simp only [if_pos ha]
    obtain ⟨p, hp, _⟩ := List.any_eq_true.mp ha
    exact List.ne_nil_of_mem hp
  · simp [ha]

theorem sum_map_incr_ge (d : List (List Char × Int)) (dom : List Char) {c : Int}
    (hc : 0 ≤ c) :
    ((d.map (fun p => p.2)).sum : Int) ≤
      ((d.map (fun p => if p.1 = dom then (p.1, p.2 + c) else p)).map
        (fun p => p.2)).sum := by
  induction d with
  | nil => simp
  | cons p rest ih =>
    simp only [List.map_cons, List.sum_cons]
    by_cases hp : p.1 = dom
    · simp only [if_pos hp]
      linarith
    · simp only [if_neg hp]
      linarith

theorem sum_map_incr_add (d : List (List Char × Int)) (dom : List Char) {c : Int}
    (hc : 0 ≤ c) (hmem : ∃ p ∈ d, p.1 = dom) :
    ((d.map (fun p => p.2)).sum : Int) + c ≤
      ((d.map (fun p => if p.1 = dom then (p.1, p.2 + c) else p)).map
        (fun p => p.2)).sum := by
  induction d with
  | nil => simp at hmem
  | cons p rest ih =>
    simp only [List.map_cons, List.sum_cons]
    by_cases hp : p.1 = dom
    · have hrest := sum_map_incr_ge rest dom hc
      simp only [if_pos hp]
      linarith
    · obtain ⟨q, hq, hqdom⟩ := hmem
      rcases List.mem_cons.mp hq with rfl | hq
      · exact absurd hqdom hp
      · have := ih ⟨q, hq, hqdom⟩
        simp only [if_neg hp]
        linarith

theorem visitsStep_total_ge (st : AggState) (v : VisitRow)
    (hc : 0 ≤ v.visit_count) :
    totalOf st + (if v.url_id ∈ st.seen then 0 else v.visit_count) ≤
      totalOf (visitsStep st v) := by
  unfold visitsStep totalOf
  by_cases hs : v.url_id ∈ st.seen
  · simp only [if_pos hs]
    rw [sum_map_snd_d1]
    simp
  · simp only [if_neg hs]
    have hmem : ∃ p ∈ (if st.d.any (fun q => q.1 == stem_url v.url) then st.d
        else st.d ++ [(stem_url v.url, 0)]), p.1 = stem_url v.url := by
      by_cases ha : st.d.any (fun q => q.1 == stem_url v.url)
      · simp only [if_pos ha]
        obtain ⟨p, hp, hbeq⟩ := List.any_eq_true.mp ha
        exact ⟨p, hp, by simpa using hbeq⟩
      · simp only [if_neg ha]
        exact ⟨(stem_url v.url, 0), by simp, rfl⟩
    have h1 := sum_map_incr_add _ (stem_url v.url) hc hmem
    have h2 := sum_map_snd_d1 st.d (stem_url v.url)
    rw [h2] at h1
    exact h1

theorem visits_total_ge_counted (rows : List VisitRow) (st : AggState)
    (hpos : ∀ r ∈ rows, 0 ≤ r.visit_count) :
    totalOf st + (countedCounts st.seen rows).sum ≤
      totalOf (rows.foldl visitsStep st) := by
  induction rows generalizing st with
  | nil => simp [countedCounts]
  | cons r rest ih =>
    have hc : 0 ≤ r.visit_count := hpos r (by simp)
    have hstep := visitsStep_total_ge st r hc
    have hseen := visitsStep_seen st r
    rw [List.foldl_cons]
    have ihr := ih (visitsStep st r) (fun q hq => hpos q (by simp [hq]))
    by_cases hs : r.url_id ∈ st.seen
    · rw [hseen, if_pos hs] at ihr
      rw [if_pos hs] at hstep
      simp only [countedCounts, if_pos hs]
      linarith
    · rw [hseen, if_neg hs] at ihr
      rw [if_neg hs] at hstep
      simp only [countedCounts, if_neg hs, List.sum_cons]
      linarith

theorem visitsStep_values_zero {st : AggState} {v : VisitRow}
    (hz : ∀ p ∈ st.d, p.2 = 0) (hv : v.visit_count = 0) :
    ∀ p ∈ (visitsStep st v).d, p.2 = 0 := by
  have hd1 : ∀ p ∈ (if st.d.any (fun q => q.1 == stem_url v.url) then st.d
      else st.d ++ [(stem_url v.url, 0)]), p.2 = 0 := by
    intro p hp
    rcases mem_d1 hp with hp | rfl
    · exact hz p hp
    · rfl
  unfold visitsStep
  by_cases hs : v.url_id ∈ st.seen
  · simp only [if_pos hs]
    exact hd1
  · simp only [if_neg hs]
    intro p hp
    obtain ⟨q, hq, rfl⟩ := List.mem_map.mp hp
    by_cases hq1 : q.1 = stem_url v.url
    · simp [hq1, hd1 q hq, hv]
    · simp [hq1, hd1 q hq]

theorem foldl_values_zero {rows : List VisitRow}
    (hz : ∀ r ∈ rows, r.visit_count = 0) {st : AggState}
    (hst : ∀ p ∈ st.d, p.2 = 0) :
    ∀ p ∈ (rows.foldl visitsStep st).d, p.2 = 0 := by
  induction rows generalizing st with
  | nil => exact hst
  | cons r rest ih =>
    rw [List.foldl_cons]
    exact ih (fun q hq => hz q (by simp [hq]))
      (visitsStep_values_zero hst (hz r (by simp)))

theorem visitsStep_d_ne_nil (st : AggState) (v : VisitRow) :
    (visitsStep st v).d ≠ [] := by
  unfold visitsStep
  by_cases hs : v.url_id ∈ st.seen
  · simp only [if_pos hs]
    exact d1_ne_nil
  · simp only [if_neg hs]
    simp only [ne_eq, List.map_eq_nil_iff]
    exact d1_ne_nil

theorem foldl_d_ne_nil (rows : List VisitRow) {st : AggState} (hst : st.d ≠ []) :
    (rows.foldl visitsStep st).d ≠ [] := by
  induction rows generalizing st with
  | nil => exact hst
  | cons r rest ih =>
    rw [List.foldl_cons]
    exact ih (visitsStep_d_ne_nil st r)

theorem visitsAgg_d_ne_nil {rows : List VisitRow} (hne : rows ≠ []) :
    (visitsAgg rows).d ≠ [] := by
  match rows, hne with
  | r :: rest, _ =>
    unfold visitsAgg
    rw [List.foldl_cons]
    exact foldl_d_ne_nil rest (visitsStep_d_ne_nil _ r)

theorem countedCounts_mem {rows : List VisitRow} :
    ∀ seen : List Nat, ∀ x ∈ countedCounts seen rows, ∃ r ∈ rows, r.visit_count = x := by
  induction rows with
  | nil => simp [countedCounts]
  | cons r rest ih =>
    intro seen x hx
    unfold countedCounts at hx
    by_cases hs : r.url_id ∈ seen
    · rw [if_pos hs] at hx
      obtain ⟨q, hq, hqx⟩ := ih seen x hx
      exact ⟨q, List.mem_cons_of_mem _ hq, hqx⟩
    · rw [if_neg hs] at hx
      rcases List.mem_cons.mp hx with rfl | hx
      · exact ⟨r, List.mem_cons_self _ _, rfl⟩
      · obtain ⟨q, hq, hqx⟩ := ih _ x hx
        exact ⟨q, List.mem_cons_of_mem _ hq, hqx⟩

theorem sum_pos_of_mem_pos {l : List Int} (hall : ∀ x ∈ l, 0 ≤ x) {x : Int}
    (hx : x ∈ l) (hpos : 0 < x) : 0 < l.sum := by
  obtain ⟨s, t, rfl⟩ := List.append_of_mem hx
  rw [List.sum_append, List.sum_cons]
  have hs : (0 : Int) ≤ s.sum := List.sum_nonneg (fun z hz => hall z (by simp [hz]))
  have ht : (0 : Int) ≤ t.sum := List.sum_nonneg (fun z hz => hall z (by simp [hz]))
  linarith

/-- One history-container record of `WebCacheVxx.dat` as read by
`_extract_webcachev01_dat` (main.py:229-253): `recovered` is the first
match of the lookbehind pattern `(?<=@)http...` of main.py:218 against the
record's URL column (`none` when the pattern does not match), `raw_time`
the raw column-13 FILETIME value and `access_count` the column-8 access
count. -/
structure WebRecord where
  recovered : Option (List Char)
  raw_time : ℚ
  access_count : Int
  redirect_urls : List Char
deriving DecidableEq

/-- One entry of the `urls` dictionary built by
`_extract_webcachev01_dat` (keyed by recovered URL). -/
structure WCUrl where
  url : List Char
  access_count : Int
  redirect_urls : List Char
  unique_id : Nat
deriving DecidableEq

/-- Loop state of `_extract_webcachev01_dat`: the insertion-ordered
`urls` dictionary, the `visits` list (here `(accessed_time, unique_id)`;
the container-id part of the composite `unique_entry_id` is not modelled,
one container being traversed), and the next value of the unique-id
generator, which starts at 1. -/
structure WCState where
  urls : List WCUrl
  visits : List (ℚ × Nat)
  nextId : Nat
deriving DecidableEq

/-- Body of the record loop of `_extract_webcachev01_dat`
(main.py:230-253): skip records whose URL does not match the `@http...`
pattern or whose converted timestamp is below the cutoff; on the first
sighting of a recovered URL store its access count (even nonpositive) and
append a visit; on a later sighting add the incremental access count only
when it is strictly positive. -/
def wcStep (min_date : ℚ) (st : WCState) (r : WebRecord) : WCState :=
  match r.recovered with
  | none => st
  | some u =>
    let date := convert_timestamp (some "IE11") r.raw_time
    if date ≥ min_date then
      if st.urls.any (fun w => w.url == u) then
        if r.access_count > 0 then
          { st with urls := st.urls.map (fun w =>
              if w.url = u then
                { w with access_count := w.access_count + r.access_count }
              else w) }
        else st
      else
        { urls := st.urls ++ [⟨u, r.access_count, r.redirect_urls, st.nextId⟩],
          visits := st.visits ++ [(date, st.nextId)],
          nextId := st.nextId + 1 }
    else st

/-- The record loop of `_extract_webcachev01_dat` over one history
container, starting from empty dictionaries and generator value 1. -/
def wcExtract (min_date : ℚ) (recs : List WebRecord) : WCState :=
  recs.foldl (wcStep min_date) ⟨[], [], 1⟩

/-- The sum of the strictly positive access counts among the given
records (what the duplicate-sighting branch of the extractor adds). -/
def sumPosCounts (recs : List WebRecord) : Int :=
  (recs.map (fun r => if r.access_count > 0 then r.access_count else 0)).sum

theorem wc_loop_single (u : List Char) (minD : ℚ) (rest : List WebRecord)
    (hall : ∀ r ∈ rest, r.recovered = some u ∧
      convert_timestamp (some "IE11") r.raw_time ≥ minD)
    (c : Int) (rd : List Char) (i : Nat) (vs : List (ℚ × Nat)) (n : Nat) :
    (rest.foldl (wcStep minD) ⟨[⟨u, c, rd, i⟩], vs, n⟩).urls =
      [⟨u, c + sumPosCounts rest, rd, i⟩] := by
  induction rest generalizing c with
  | nil => simp [sumPosCounts]
  | cons r rs ih =>
    obtain ⟨hrec, hdate⟩ := hall r (List.mem_cons_self _ _)
    rw [List.foldl_cons]
    have hstep : wcStep minD ⟨[⟨u, c, rd, i⟩], vs, n⟩ r =
        ⟨[⟨u, c + (if r.access_count > 0 then r.access_count else 0), rd, i⟩],
          vs, n⟩ := by
      unfold wcStep
      rw [hrec]
      simp only [if_pos hdate]
      by_cases hp : r.access_count > 0 <;> simp [hp]
    rw [hstep]
    rw [ih (fun q hq => hall q (List.mem_cons_of_mem _ hq)) _]
    have : sumPosCounts (r :: rs) =
        (if r.access_count > 0 then r.access_count else 0) + sumPosCounts rs := by
      simp [sumPosCounts]
    rw [this, add_assoc]

theorem wcStep_visits_cutoff {minD : ℚ} {st : WCState} {r : WebRecord}
    (h : ∀ v ∈ st.visits, minD ≤ v.1) :
    ∀ v ∈ (wcStep minD st r).visits, minD ≤ v.1 := by
  unfold wcStep
  cases hrec : r.recovered with
  | none => exact h
  | some u =>
    simp only
    by_cases hd : convert_timestamp (some "IE11") r.raw_time ≥ minD
    · rw [if_pos hd]
      by_cases ha : st.urls.any (fun w => w.url == u)
      · rw [if_pos ha]
        by_cases hp : r.access_count > 0
        · rw [if_pos hp]
          exact h
        · rw [if_neg hp]
          exact h
      · rw [if_neg ha]
        intro v hv
        simp only [List.mem_append, List.mem_singleton] at hv
        rcases hv with hv | rfl
        · exact h v hv
        · exact hd
    · rw [if_neg hd]
      exact h

theorem wcExtract_visits_cutoff (minD : ℚ) (recs : List WebRecord) :
    ∀ v ∈ (wcExtract minD recs).visits, minD ≤ v.1 := by
  have haux : ∀ (l : List WebRecord) (st : WCState),
      (∀ v ∈ st.visits, minD ≤ v.1) →
      ∀ v ∈ (l.foldl (wcStep minD) st).visits, minD ≤ v.1 := by
    intro l
    induction l with
    | nil => exact fun st h => h
    | cons r rs ih =>
      intro st h
      rw [List.foldl_cons]
      exact ih _ (wcStep_visits_cutoff h)
  exact haux recs ⟨[], [], 1⟩ (by simp)

/-- One row of the canonical `urls` table, in the fields touched by
`_update_db` (main.py:468-514). -/
structure UrlRow where
  id : Nat
  url : List Char
  title : List Char
  rev_host : List Char
  redirect_urls : List Char
deriving DecidableEq

/-- Embedding of `_hash_domain` (main.py:708-715):
`hashlib.sha256(salt.encode() + domain.encode()).hexdigest() + '-' + salt`.
The SHA-256 hex digest is an external library call; it is abstracted as
the function argument `digest` (applied to the salt and the domain), so
that theorems quantify over every possible digest value. -/
def hash_domain (digest : List Char → List Char → List Char)
    (salt domain : List Char) : List Char :=
  digest salt domain ++ '-' :: salt

/-- Decimal digit characters, `digitChar n` being the digit of `n < 10`. -/
def digitChar (n : Nat) : Char :=
  ['0', '1', '2', '3', '4', '5', '6', '7', '8', '9'].getD n '9'

/-- Fuel-based helper for `natChars` (structural recursion so that closed
terms reduce). -/
def natCharsAux : Nat → Nat → List Char → List Char
  | 0, _, acc => acc
  | fuel + 1, n, acc =>
    if n < 10 then digitChar n :: acc
    else natCharsAux fuel (n / 10) (digitChar (n % 10) :: acc)

/-- Python's `str(i)` for a natural number: its decimal digits. -/
def natChars (n : Nat) : List Char :=
  natCharsAux (n + 1) n []

example : natChars 0 = ['0'] := by decide
example : natChars 120 = ['1', '2', '0'] := by decide

/-- Python exceptions that `_update_db` can raise. -/
inductive PyErr where
  | valueError
  | indexError
deriving DecidableEq

/-- One iteration of the `for i in _ids` loop of `_update_db`
(main.py:489-509): fetch the first `urls` row with the given id (a
missing row raises `IndexError` through `entry[0][0]`); skip the id when
the stored URL has no host match (`_is_url(..., r=True)` falsy);
otherwise run the kind-specific UPDATE on every row with that id and
commit.  `digest` abstracts the SHA-256 hex digest, `saltF i` the fresh
`uuid.uuid4().hex` salt drawn in the iteration handling id `i`, and
`kwSub old new` the `re.sub(pat, new, old)` substitution of the
`keywords` branch.  An unrecognized `kind` raises `ValueError`. -/
def mutateStep (kind : String) (digest : List Char → List Char → List Char)
    (saltF : Nat → List Char) (kwSub : List Char → List Char → List Char)
    (store : List UrlRow) (i : Nat) : Except PyErr (List UrlRow) :=
  match store.find? (fun row => row.id == i) with
  | none => .error .indexError
  | some row =>
    match findHost row.url with
    | none => .ok store
    | some host =>
      let uid := litAnonym ++ hash_domain digest (saltF i) host ++ '-' :: natChars i
      if kind = "keywords" then
        .ok (store.map (fun w => if w.id = i then
          { w with
            url := kwSub row.url uid,
            title := "***".toList } else w))
      else if kind = "urls" then
        .ok (store.map (fun w => if w.id = i then
          { w with
            url := stem_url row.url ++ '/' :: "***".toList,
            title := "***".toList,
            redirect_urls := "***".toList } else w))
      else if kind = "domains" then
        .ok (store.map (fun w => if w.id = i then
          { w with
            url := uid,
            title := "***".toList,
            rev_host := "***".toList,
            redirect_urls := "***".toList } else w))
      else .error .valueError

/-- The `for i in _ids` loop of `_update_db`, with per-row commits: a
raised exception aborts the loop but keeps the mutations already
committed. -/
def mutLoop (kind : String) (digest : List Char → List Char → List Char)
    (saltF : Nat → List Char) (kwSub : List Char → List Char → List Char) :
    List Nat → List UrlRow → List UrlRow × Option PyErr
  | [], store => (store, none)
  | i :: rest, store =>
    match mutateStep kind digest saltF kwSub store i with
    | .ok store' => mutLoop kind digest saltF kwSub rest store'
    | .error e => (store, some e)

/-- The argument `x` of `_update_db`: a string key, a list of URL ids, or
a value of any other type (e.g. an integer). -/
inductive UpdateArg where
  | str (s : List Char)
  | ids (l : List Nat)
  | other
deriving DecidableEq

/-- Embedding of `_update_db` (main.py:468-514).  `domainsMap` and
`keywordsMap` model the id lists `self._domains[x]['ids']` and
`self._keywords[x]['ids']` computed by `select_domains` / `search_terms`.
The result's second component is `none` on success and `some e` when
Python raises `e`, the first component being the store at that moment
(per-row commits are kept; on the argument-check `ValueError` of
main.py:488 nothing has been touched). -/
def update_db (digest : List Char → List Char → List Char)
    (saltF : Nat → List Char) (kwSub : List Char → List Char → List Char)
    (domainsMap keywordsMap : List Char → List Nat)
    (x : UpdateArg) (kind : String) (store : List UrlRow) :
    List UrlRow × Option PyErr :=
  match x with
  | .str s =>
    mutLoop kind digest saltF kwSub
      (if kind = "keywords" then keywordsMap s else domainsMap s) store
  | .ids l =>
    if kind = "urls" then mutLoop kind digest saltF kwSub l store
    else (store, some .valueError)
  | .other => (store, some .valueError)

/-- What one pass of the `domains` mutation does to a row, as a function
of the selected id list: rows whose id is selected and whose stored URL
is navigable get the synthetic token as URL and `***` in the title,
reverse-host and redirect-chain fields; all other rows are unchanged. -/
def domainsMutatedRow (digest : List Char → List Char → List Char)
    (saltF : Nat → List Char) (ids : List Nat) (row : UrlRow) : UrlRow :=
  if row.id ∈ ids then
    match findHost row.url with
    | some host =>
      { row with
        url := litAnonym ++ hash_domain digest (saltF row.id) host ++
          '-' :: natChars row.id,
        title := "***".toList, rev_host := "***".toList,
        redirect_urls := "***".toList }
    | none => row
  else row

/-- Hexadecimal digit (the alphabet of `hexdigest()` and `uuid4().hex`). -/
def isHexChar (c : Char) : Bool :=
  ('0' ≤ c && c ≤ '9') || ('a' ≤ c && c ≤ 'f')

/-- The characters that can occur in a `domains` anonymization token:
hex digits (digest, salt and the decimal row id) and the characters of
the literal `anonymisiert-` (which include the hyphen). -/
def tokenChar (c : Char) : Bool :=
  isHexChar c || decide (c ∈ litAnonym)

/-- Python's substring test `pat in s` (contiguous occurrence). -/
def containsSub (pat s : List Char) : Bool :=
  (List.range (s.length + 1)).any (fun k => (s.drop k).take pat.length == pat)

example : containsSub "b.c".toList "ab.cd".toList = true := by decide
example : containsSub "ex.ch".toList "anonymisiert-0f-9c-1".toList = false := by
  decide

theorem find?_id_unique {store : List UrlRow} (hnd : (store.map UrlRow.id).Nodup)
    {r : UrlRow} (hr : r ∈ store) :
    store.find? (fun w => w.id == r.id) = some r := by
  induction store with
  | nil => simp at hr
  | cons a rest ih =>
    rcases List.mem_cons.mp hr with rfl | hr
    · rw [List.find?_cons_of_pos _ (by simp)]
    · have hne : (a.id == r.id) = false := by
        rw [beq_eq_false_iff_ne]
        intro he
        have hmem : r.id ∈ rest.map UrlRow.id := List.mem_map_of_mem _ hr
        rw [← he] at hmem
        simp only [List.map_cons, List.nodup_cons] at hnd
        exact hnd.1 hmem
      simp only [List.find?, hne, cond_false]
      refine ih ?_ hr
      simp only [List.map_cons, List.nodup_cons] at hnd
      exact hnd.2

theorem id_unique {store : List UrlRow} (hnd : (store.map UrlRow.id).Nodup)
    {r w : UrlRow} (hr : r ∈ store) (hw : w ∈ store) (he : r.id = w.id) :
    r = w := by
  have h1 := find?_id_unique hnd hr
  have h2 := find?_id_unique hnd hw
  rw [he] at h1
  rw [h1] at h2
  exact Option.some.inj h2

theorem digitChar_isHex (n : Nat) : isHexChar (digitChar n) = true := by
  match n with
  | 0 | 1 | 2 | 3 | 4 | 5 | 6 | 7 | 8 | 9 => decide
  | n + 10 =>
    unfold digitChar
    rw [List.getD_eq_default]
    · decide
    · simp

theorem natCharsAux_mem (fuel : Nat) :
    ∀ (n : Nat) (acc : List Char), ∀ c ∈ natCharsAux fuel n acc,
      (∃ k, c = digitChar k) ∨ c ∈ acc := by
  induction fuel with
  | zero => exact fun n acc c hc => Or.inr hc
  | succ fuel ih =>
    intro n acc c hc
    unfold natCharsAux at hc
    split at hc
    · rcases List.mem_cons.mp hc with rfl | hc
      · exact Or.inl ⟨n, rfl⟩
      · exact Or.inr hc
    · rcases ih (n / 10) _ c hc with h | h
      · exact Or.inl h
      · rcases List.mem_cons.mp h with rfl | h
        · exact Or.inl ⟨n % 10, rfl⟩
        · exact Or.inr h

theorem natChars_isHex (i : Nat) : ∀ c ∈ natChars i, isHexChar c = true := by
  intro c hc
  rcases natCharsAux_mem (i + 1) i [] c hc with ⟨k, rfl⟩ | h
  · exact digitChar_isHex k
  · simp at h

theorem containsSub_mem {pat s : List Char} (h : containsSub pat s = true) :
    ∀ c ∈ pat, c ∈ s := by
  unfold containsSub at h
  obtain ⟨k, hk, hbeq⟩ := List.any_eq_true.mp h
  have heq : (s.drop k).take pat.length = pat := by simpa using hbeq
  intro c hc
  rw [← heq] at hc
  exact List.drop_subset _ _ (List.take_subset _ _ hc)

theorem domainsToken_chars {digest : List Char → List Char → List Char}
    {saltF : Nat → List Char} {host : List Char} {i : Nat}
    (hd : ∀ c ∈ digest (saltF i) host, isHexChar c = true)
    (hs : ∀ c ∈ saltF i, isHexChar c = true) :
    ∀ c ∈ litAnonym ++ hash_domain digest (saltF i) host ++ '-' :: natChars i,
      tokenChar c = true := by
  intro c hc
  have hc' : c ∈ litAnonym ∨ c ∈ digest (saltF i) host ∨ c = '-' ∨
      c ∈ saltF i ∨ c ∈ natChars i := by
    simp only [hash_domain, List.append_assoc, List.cons_append,
      List.mem_append, List.mem_cons] at hc
    tauto
  rcases hc' with hc | hc | rfl | hc | hc
  · simp [tokenChar, hc]
  · simp [tokenChar, hd c hc]
  · decide
  · simp [tokenChar, hs c hc]
  · simp [tokenChar, natChars_isHex i c hc]

theorem not_contains_of_alphabet {host token : List Char} {p : Char → Bool}
    (htok : ∀ c ∈ token, p c = true) (hbad : ∃ c ∈ host, p c = false) :
    containsSub host token = false := by
  by_contra h
  rw [Bool.not_eq_false] at h
  obtain ⟨c, hc, hcf⟩ := hbad
  have hmem := containsSub_mem h c hc
  rw [htok c hmem] at hcf
  cases hcf

theorem token_not_contains {host token : List Char}
    (htok : ∀ c ∈ token, tokenChar c = true)
    (hbad : ∃ c ∈ host, tokenChar c = false) :
    containsSub host token = false :=
  not_contains_of_alphabet htok hbad

theorem hash_domain_chars {digest : List Char → List Char → List Char}
    {salt dom : List Char} (hd : ∀ c ∈ digest salt dom, isHexChar c = true)
    (hs : ∀ c ∈ salt, isHexChar c = true) :
    ∀ c ∈ hash_domain digest salt dom, (isHexChar c || c == '-') = true := by
  intro c hc
  unfold hash_domain at hc
  simp only [List.mem_append, List.mem_cons] at hc
  rcases hc with hc | rfl | hc
  · simp [hd c hc]
  · decide
  · simp [hs c hc]

theorem domainsMutatedRow_nil (digest : List Char → List Char → List Char)
    (saltF : Nat → List Char) (row : UrlRow) :
    domainsMutatedRow digest saltF [] row = row := by
  simp [domainsMutatedRow]

theorem domainsMutatedRow_not_mem {ids : List Nat} {row : UrlRow}
    (h : row.id ∉ ids) (digest : List Char → List Char → List Char)
    (saltF : Nat → List Char) :
    domainsMutatedRow digest saltF ids row = row := by
  simp [domainsMutatedRow, h]

theorem domainsMutatedRow_cons_ne {i : Nat} {ids : List Nat} {row : UrlRow}
    (h : row.id ≠ i) (digest : List Char → List Char → List Char)
    (saltF : Nat → List Char) :
    domainsMutatedRow digest saltF (i :: ids) row =
      domainsMutatedRow digest saltF ids row := by
  unfold domainsMutatedRow
  simp [List.mem_cons, h]

theorem domainsMutatedRow_mem_some {ids : List Nat} {row : UrlRow}
    {host : List Char} (hmem : row.id ∈ ids) (hh : findHost row.url = some host)
    (digest : List Char → List Char → List Char) (saltF : Nat → List Char) :
    domainsMutatedRow digest saltF ids row =
      { row with
        url := litAnonym ++ hash_domain digest (saltF row.id) host ++
          '-' :: natChars row.id,
        title := "***".toList, rev_host := "***".toList,
        redirect_urls := "***".toList } := by
  unfold domainsMutatedRow
  rw [if_pos hmem, hh]

theorem domainsMutatedRow_none {ids : List Nat} {row : UrlRow}
    (hh : findHost row.url = none) (digest : List Char → List Char → List Char)
    (saltF : Nat → List Char) :
    domainsMutatedRow digest saltF ids row = row := by
  unfold domainsMutatedRow
  by_cases hmem : row.id ∈ ids
  · rw [if_pos hmem, hh]
  · rw [if_neg hmem]

/-- The per-row effect of one UPDATE of the `domains` branch of
`_update_db` for id `i`, applied to every row of the store. -/
def domainsUpdateOne (digest : List Char → List Char → List Char)
    (saltF : Nat → List Char) (i : Nat) (host : List Char) (w : UrlRow) :
    UrlRow :=
  if w.id = i then
    { w with
      url := litAnonym ++ hash_domain digest (saltF i) host ++ '-' :: natChars i,
      title := "***".toList, rev_host := "***".toList,
      redirect_urls := "***".toList }
  else w

theorem domainsUpdateOne_id (digest : List Char → List Char → List Char)
    (saltF : Nat → List Char) (i : Nat) (host : List Char) (w : UrlRow) :
    (domainsUpdateOne digest saltF i host w).id = w.id := by
  unfold domainsUpdateOne
  by_cases hw : w.id = i <;> simp [hw]

theorem domainsUpdateOne_ne {i : Nat} {w : UrlRow} (hw : w.id ≠ i)
    (digest : List Char → List Char → List Char) (saltF : Nat → List Char)
    (host : List Char) : domainsUpdateOne digest saltF i host w = w := by
  unfold domainsUpdateOne
  rw [if_neg hw]

theorem mutateStep_domains_none {store : List UrlRow} {i : Nat} {r_i : UrlRow}
    (digest : List Char → List Char → List Char) (saltF : Nat → List Char)
    (kwSub : List Char → List Char → List Char)
    (hfind : store.find? (fun w => w.id == i) = some r_i)
    (hh : findHost r_i.url = none) :
    mutateStep "domains" digest saltF kwSub store i = .ok store := by
  unfold mutateStep
  simp only [hfind, hh]

theorem mutateStep_domains_some {store : List UrlRow} {i : Nat} {r_i : UrlRow}
    {host : List Char}
    (digest : List Char → List Char → List Char) (saltF : Nat → List Char)
    (kwSub : List Char → List Char → List Char)
    (hfind : store.find? (fun w => w.id == i) = some r_i)
    (hh : findHost r_i.url = some host) :
    mutateStep "domains" digest saltF kwSub store i =
      .ok (store.map (domainsUpdateOne digest saltF i host)) := by
  unfold mutateStep
  simp only [hfind, hh]
  rfl

theorem mutLoop_domains (digest : List Char → List Char → List Char)
    (saltF : Nat → List Char) (kwSub : List Char → List Char → List Char) :
    ∀ (ids : List Nat) (store : List UrlRow),
      (store.map UrlRow.id).Nodup → ids.Nodup →
      (∀ i ∈ ids, ∃ r ∈ store, r.id = i) →
      mutLoop "domains" digest saltF kwSub ids store =
        (store.map (domainsMutatedRow digest saltF ids), none) := by
  intro ids
  induction ids with
  | nil =>
    intro store _ _ _
    have hmap : store.map (domainsMutatedRow digest saltF []) = store := by
      rw [show domainsMutatedRow digest saltF [] = id from
        funext (domainsMutatedRow_nil digest saltF), List.map_id]
    unfold mutLoop
    rw [hmap]
  | cons i rest ih =>
    intro store hnd hids hpres
    obtain ⟨r_i, hri, hriid⟩ := hpres i (List.mem_cons_self _ _)
    have hfind : store.find? (fun w => w.id == i) = some r_i := by
      rw [← hriid]
      exact find?_id_unique hnd hri
    have hnotrest : i ∉ rest := (List.nodup_cons.mp hids).1
    have hidsrest : rest.Nodup := (List.nodup_cons.mp hids).2
    cases hh : findHost r_i.url with
    | none =>
      unfold mutLoop
      rw [mutateStep_domains_none digest saltF kwSub hfind hh]
      simp only
      rw [ih store hnd hidsrest (fun j hj => hpres j (List.mem_cons_of_mem _ hj))]
      refine congrArg (fun l => (l, none)) ?_
      apply List.map_congr_left
      intro row hrow
      by_cases hid : row.id = i
      · have hrw : row = r_i := id_unique hnd hrow hri (by rw [hid, hriid])
        cases hrw
        rw [domainsMutatedRow_none hh, domainsMutatedRow_none hh]
      · rw [domainsMutatedRow_cons_ne hid]
    | some host =>
      unfold mutLoop
      rw [mutateStep_domains_some digest saltF kwSub hfind hh]
      simp only
      have hnd' : ((store.map (domainsUpdateOne digest saltF i host)).map
          UrlRow.id).Nodup := by
        rw [List.map_map]
        rw [show (UrlRow.id ∘ domainsUpdateOne digest saltF i host) = UrlRow.id
          from funext fun w => domainsUpdateOne_id digest saltF i host w]
        exact hnd
      have hpres' : ∀ j ∈ rest, ∃ r ∈ store.map (domainsUpdateOne digest saltF i host),
          r.id = j := by
        intro j hj
        obtain ⟨r, hr, hrid⟩ := hpres j (List.mem_cons_of_mem _ hj)
        exact ⟨domainsUpdateOne digest saltF i host r, List.mem_map_of_mem _ hr,
          (domainsUpdateOne_id digest saltF i host r).trans hrid⟩
      rw [ih (store.map (domainsUpdateOne digest saltF i host)) hnd' hidsrest hpres']
      refine congrArg (fun l => (l, none)) ?_
      rw [List.map_map]
      apply List.map_congr_left
      intro row hrow
      show domainsMutatedRow digest saltF rest (domainsUpdateOne digest saltF i host row) =
        domainsMutatedRow digest saltF (i :: rest) row
      by_cases hid : row.id = i
      · have hrw : row = r_i := id_unique hnd hrow hri (by rw [hid, hriid])
        subst hrw
        rw [domainsMutatedRow_not_mem
          (by rw [domainsUpdateOne_id, hid]; exact hnotrest)]
        rw [domainsMutatedRow_mem_some
          (by rw [hid]; exact List.mem_cons_self _ _) hh]
        unfold domainsUpdateOne
        rw [if_pos hid, hid]
      · rw [domainsUpdateOne_ne hid, domainsMutatedRow_cons_ne hid]

/-- One row of Chrome's source `visits` table, in the columns used by the
WHERE clauses of `_import_data` (main.py:331, 340): `url` is the foreign
key into the source `urls` table, `visit_time` the raw Chrome timestamp
(microseconds since 1601, an INTEGER column, nonnegative in any real
profile — the SQL division `visit_time/1000000` is integer division). -/
structure ChromeVisit where
  id : Nat
  url : Nat
  visit_time : Int
deriving DecidableEq

/-- One row of Chrome's source `urls` table. -/
structure ChromeUrl where
  id : Nat
  url : List Char
deriving DecidableEq

/-- The visits SELECT for Chrome (main.py:331): keep the rows with
`(visits.visit_time/1000000)-11644473600 >= min_date`. -/
def chromeVisitsQuery (min_date : ℚ) (visits : List ChromeVisit) :
    List ChromeVisit :=
  visits.filter (fun v =>
    decide (((v.visit_time / 1000000 - 11644473600 : Int) : ℚ) ≥ min_date))

/-- The urls SELECT for Chrome (main.py:340): the join of `urls` and
`visits` on `urls.id = visits.url`, filtered by the same cutoff and by
`NOT REGEXP('^file:', urls.url)` (`_regexp` uses `re.match`, a prefix
test). -/
def chromeUrlsQuery (min_date : ℚ) (urls : List ChromeUrl)
    (visits : List ChromeVisit) : List (ChromeUrl × ChromeVisit) :=
  (urls.product visits).filter (fun p =>
    decide (p.1.id = p.2.url) &&
    decide (((p.2.visit_time / 1000000 - 11644473600 : Int) : ℚ) ≥ min_date) &&
    ! ("file:".toList.isPrefixOf p.1.url))

/-- One row of Firefox's `moz_historyvisits` table (visit_date: raw
microsecond INTEGER timestamp). -/
structure FirefoxVisit where
  id : Nat
  place_id : Nat
  visit_date : Int
deriving DecidableEq

/-- The visits SELECT for Firefox (main.py:333):
`(visit_date/1000000) >= min_date`. -/
def firefoxVisitsQuery (min_date : ℚ) (visits : List FirefoxVisit) :
    List FirefoxVisit :=
  visits.filter (fun v => decide (((v.visit_date / 1000000 : Int) : ℚ) ≥ min_date))

/-- One row of Safari's `history_visits` table (visit_time: REAL seconds
since 2001). -/
structure SafariVisit where
  id : Nat
  history_item : Nat
  visit_time : ℚ
deriving DecidableEq

/-- The visits SELECT for Safari's relational schema (main.py:335):
`(history_visits.visit_time + 978307200) >= min_date`. -/
def safariVisitsQuery (min_date : ℚ) (visits : List SafariVisit) :
    List SafariVisit :=
  visits.filter (fun v => decide (v.visit_time + 978307200 ≥ min_date))

/-- One entry of Safari's legacy `History.plist` `WebHistoryDates` array
as read by `_extract_history_plist` (main.py:132-162); `redirectURLs` is
the space-joined redirect list when the key is present. -/
structure PlistItem where
  url : List Char
  lastVisitedDate : ℚ
  title : List Char
  visitCount : Int
  redirectURLs : Option (List Char)
deriving DecidableEq

/-- One canonical URL tuple produced by `_extract_history_plist`. -/
structure PlistUrl where
  id : Nat
  last_visit_date : ℚ
  redirect_urls : Option (List Char)
  title : List Char
  url : List Char
  visit_count : Int
deriving DecidableEq

/-- Accumulator of `_extract_history_plist`: the `urls` and `visits`
lists and the next unique id (the generator starts at 1). -/
structure PlistState where
  urls : List PlistUrl
  visits : List (Nat × ℚ)
  nextId : Nat
deriving DecidableEq

/-- Body of the item loop of `_extract_history_plist` (main.py:143-161):
keep an item only when its URL passes `_is_url` and its converted
timestamp reaches the cutoff; each kept item gets a fresh identifier and
produces one URL tuple and one visit tuple. -/
def plistStep (min_date : ℚ) (st : PlistState) (item : PlistItem) :
    PlistState :=
  let date := convert_timestamp (some "Safari") item.lastVisitedDate
  if (findHost item.url).isSome ∧ date ≥ min_date then
    { urls := st.urls ++
        [⟨st.nextId, date, item.redirectURLs, item.title, item.url,
          item.visitCount⟩],
      visits := st.visits ++ [(st.nextId, date)],
      nextId := st.nextId + 1 }
  else st

/-- Embedding of `_extract_history_plist` (main.py:132-162). -/
def extract_history_plist (min_date : ℚ) (items : List PlistItem) :
    PlistState :=
  items.foldl (plistStep min_date) ⟨[], [], 1⟩

theorem convert_chrome_eq (x : ℚ) :
    convert_timestamp (some "Chrome") x = -11644473600 + x / 1000000 := rfl

theorem convert_firefox_eq (x : ℚ) :
    convert_timestamp (some "Firefox") x = x / 1000000 := rfl

theorem convert_safari_eq (x : ℚ) :
    convert_timestamp (some "Safari") x = 978307200 + x := rfl

theorem int_div_le_rat (t : Int) :
    ((t / 1000000 : Int) : ℚ) ≤ (t : ℚ) / 1000000 := by
  rw [le_div_iff₀ (by norm_num : (0 : ℚ) < 1000000)]
  have h : (t / 1000000) * 1000000 ≤ t := by omega
  exact_mod_cast h

theorem rat_lt_int_div_add_one (t : Int) :
    (t : ℚ) / 1000000 - 1 < ((t / 1000000 : Int) : ℚ) := by
  have h : t < (t / 1000000 + 1) * 1000000 := by omega
  have h' : (t : ℚ) < ((t / 1000000 + 1 : Int) : ℚ) * 1000000 := by
    exact_mod_cast h
  rw [sub_lt_iff_lt_add]
  rw [div_lt_iff₀ (by norm_num : (0 : ℚ) < 1000000)] at *
  push_cast at h' ⊢
  linarith

theorem plistStep_invariants {minD : ℚ} {st : PlistState} {item : PlistItem}
    (hv : ∀ v ∈ st.visits, minD ≤ v.2)
    (hu : ∀ u ∈ st.urls, (findHost u.url).isSome = true) :
    (∀ v ∈ (plistStep minD st item).visits, minD ≤ v.2) ∧
    (∀ u ∈ (plistStep minD st item).urls, (findHost u.url).isSome = true) := by
  unfold plistStep
  by_cases hc : (findHost item.url).isSome = true ∧
      convert_timestamp (some "Safari") item.lastVisitedDate ≥ minD
  · rw [if_pos hc]
    constructor
    · intro v hmem
      simp only [List.mem_append, List.mem_singleton] at hmem
      rcases hmem with hmem | rfl
      · exact hv v hmem
      · exact hc.2
    · intro u hmem
      simp only [List.mem_append, List.mem_singleton] at hmem
      rcases hmem with hmem | rfl
      · exact hu u hmem
      · exact hc.1
  · rw [if_neg hc]
    exact ⟨hv, hu⟩

theorem extract_history_plist_invariants (minD : ℚ) (items : List PlistItem) :
    (∀ v ∈ (extract_history_plist minD items).visits, minD ≤ v.2) ∧
    (∀ u ∈ (extract_history_plist minD items).urls,
      (findHost u.url).isSome = true) := by
  have haux : ∀ (l : List PlistItem) (st : PlistState),
      (∀ v ∈ st.visits, minD ≤ v.2) →
      (∀ u ∈ st.urls, (findHost u.url).isSome = true) →
      (∀ v ∈ (l.foldl (plistStep minD) st).visits, minD ≤ v.2) ∧
      (∀ u ∈ (l.foldl (plistStep minD) st).urls,
        (findHost u.url).isSome = true) := by
    intro l
    induction l with
    | nil => exact fun st hv hu => ⟨hv, hu⟩
    | cons item rest ih =>
      intro st hv hu
      rw [List.foldl_cons]
      obtain ⟨hv', hu'⟩ := plistStep_invariants hv hu
      exact ih _ hv' hu'
  exact haux items ⟨[], [], 1⟩ (by simp) (by simp)

/-- "INSERT OR IGNORE" of one row (main.py:360-362).  Modelled from the
spec: the canonical schema file `data/schema.sql` is not part of src/, so
the duplicate test is the spec's "insert, ignore on duplicate primary
key" with the primary key abstracted as a key function. -/
def insertOrIgnore {α κ : Type} [DecidableEq κ] (key : α → κ)
    (table : List α) (row : α) : List α :=
  if table.any (fun r => decide (key r = key row)) then table
  else table ++ [row]

/-- `executemany` of the INSERT OR IGNORE statement over a record stream
(main.py:362). -/
def insertMany {α κ : Type} [DecidableEq κ] (key : α → κ)
    (table : List α) (rows : List α) : List α :=
  rows.foldl (insertOrIgnore key) table

theorem insertOrIgnore_key_mono {α κ : Type} [DecidableEq κ] {key : α → κ}
    {table : List α} {k : κ} (h : ∃ r ∈ table, key r = k) (row : α) :
    ∃ r ∈ insertOrIgnore key table row, key r = k := by
  unfold insertOrIgnore
  by_cases ha : table.any (fun r => decide (key r = key row))
  · rw [if_pos ha]
    exact h
  · rw [if_neg ha]
    obtain ⟨r, hr, hrk⟩ := h
    exact ⟨r, List.mem_append_left _ hr, hrk⟩

theorem insertOrIgnore_key_self {α κ : Type} [DecidableEq κ] (key : α → κ)
    (table : List α) (row : α) :
    ∃ r ∈ insertOrIgnore key table row, key r = key row := by
  unfold insertOrIgnore
  by_cases ha : table.any (fun r => decide (key r = key row))
  · rw [if_pos ha]
    obtain ⟨r, hr, hrk⟩ := List.any_eq_true.mp ha
    exact ⟨r, hr, of_decide_eq_true hrk⟩
  · rw [if_neg ha]
    exact ⟨row, List.mem_append_right _ (List.mem_singleton_self _), rfl⟩

theorem insertMany_key_mono {α κ : Type} [DecidableEq κ] {key : α → κ} :
    ∀ (rows : List α) (table : List α) (k : κ),
      (∃ r ∈ table, key r = k) → ∃ r ∈ insertMany key table rows, key r = k := by
  intro rows
  induction rows with
  | nil => exact fun table k h => h
  | cons q rest ih =>
    intro table k h
    unfold insertMany
    rw [List.foldl_cons]
    exact ih _ k (insertOrIgnore_key_mono h q)

theorem insertMany_keys_present {α κ : Type} [DecidableEq κ] {key : α → κ} :
    ∀ (rows : List α) (table : List α) (r : α), r ∈ rows →
      ∃ w ∈ insertMany key table rows, key w = key r := by
  intro rows
  induction rows with
  | nil => intro table r hr; simp at hr
  | cons q rest ih =>
    intro table r hr
    unfold insertMany
    rw [List.foldl_cons]
    rcases List.mem_cons.mp hr with rfl | hr
    · exact insertMany_key_mono rest _ _ (insertOrIgnore_key_self key table r)
    · exact ih _ r hr

theorem insertOrIgnore_of_present {α κ : Type} [DecidableEq κ] {key : α → κ}
    {table : List α} {row : α} (h : ∃ r ∈ table, key r = key row) :
    insertOrIgnore key table row = table := by
  unfold insertOrIgnore
  rw [if_pos]
  obtain ⟨r, hr, hrk⟩ := h
  exact List.any_eq_true.mpr ⟨r, hr, decide_eq_true hrk⟩

theorem insertMany_of_all_present {α κ : Type} [DecidableEq κ] {key : α → κ} :
    ∀ (rows : List α) (table : List α),
      (∀ r ∈ rows, ∃ w ∈ table, key w = key r) →
      insertMany key table rows = table := by
  intro rows
  induction rows with
  | nil => exact fun table _ => rfl
  | cons q rest ih =>
    intro table h
    unfold insertMany
    rw [List.foldl_cons, insertOrIgnore_of_present (h q (List.mem_cons_self _ _))]
    exact ih table (fun r hr => h r (List.mem_cons_of_mem _ hr))

end BrowsingHistory

namespace Claims

open BrowsingHistory

/-- **C1.** The timestamp normalizer follows the per-browser rule table:
Chrome = 1601-01-01 origin plus `ts` microseconds, IE11 = 1601-01-01 origin
plus `ts × 0.1` microseconds, Safari = 2001-01-01 origin plus `ts` seconds,
Firefox = `ts / 10^6` Unix seconds, and any other browser identifier is
treated as already-Unix seconds.  Moreover, encoding a wall-clock Unix
instant `u` in each browser's native unit and running it through the
normalizer returns `u` exactly (in particular within 1 second). -/
theorem c1_convert_timestamp_rule_table (ts u : ℚ) (b : Option String)
    (hb : b ≠ some "Chrome" ∧ b ≠ some "IE11" ∧ b ≠ some "Safari" ∧
      b ≠ some "Firefox") :
    convert_timestamp (some "Chrome") ts = ts / 1000000 - 11644473600 ∧
    convert_timestamp (some "IE11") ts = ts / 10000000 - 11644473600 ∧
    convert_timestamp (some "Safari") ts = 978307200 + ts ∧
    convert_timestamp (some "Firefox") ts = ts / 1000000 ∧
    convert_timestamp b ts = ts ∧
    convert_timestamp (some "Chrome") ((u + 11644473600) * 1000000) = u ∧
    convert_timestamp (some "IE11") ((u + 11644473600) * 10000000) = u ∧
    convert_timestamp (some "Safari") (u - 978307200) = u ∧
    convert_timestamp (some "Firefox") (u * 1000000) = u := by
  obtain ⟨h1, h2, h3, h4⟩ := hb
  refine ⟨?_, ?_, ?_, ?_, by simp [convert_timestamp, h1, h2, h3, h4],
    ?_, ?_, ?_, ?_⟩ <;> simp [convert_timestamp] <;> ring

/-- Witness for C1 at the concrete browser identifier `"Opera"` and
concrete timestamps. -/
theorem c1_convert_timestamp_rule_table_witness :
    convert_timestamp (some "Opera") 12345 = 12345 :=
  (c1_convert_timestamp_rule_table 12345 7 (some "Opera")
    (by refine ⟨?_, ?_, ?_, ?_⟩ <;> decide)).2.2.2.2.1

/-- **C4** is false as stated: domain stemming is *not* idempotent on
every input.  Stemming `http://anonymisiert-a-b.com` extracts the host
`anonymisiert-a-b.com`, but stemming that host again matches the
anonymized-token pattern and returns the proper substring
`anonymisiert-a-b`. -/
theorem c4_stem_url_not_idempotent_counterexample :
    ¬ (stem_url (stem_url "http://anonymisiert-a-b.com".toList) =
        stem_url "http://anonymisiert-a-b.com".toList) := by decide

/-- **C4 (amended).**  Domain stemming is idempotent for every input whose
first stemming pass does not expose a new reduction opportunity: if
`stem(x)` contains no anonymized token other than possibly itself and does
not end in `/***`, then `stem(stem(x)) = stem(x)`.  (The output of a first
pass never contains a `://` host match, so these are the only two ways a
second pass can act.) -/
theorem c4_stem_url_idempotent_amended (x : List Char)
    (h1 : findAnonym (stem_url x) = none ∨
      findAnonym (stem_url x) = some (stem_url x))
    (h2 : endsSlashStars (stem_url x) = false) :
    stem_url (stem_url x) = stem_url x :=
  stem_url_fixpoint (findHost_stem_url x) h1 h2

/-- Witness for the amended C4 at a concrete URL, an already-anonymized
token, and an already-stemmed domain. -/
theorem c4_stem_url_idempotent_amended_witness :
    stem_url (stem_url "https://www.google.com/search?q=x".toList) =
      stem_url "https://www.google.com/search?q=x".toList ∧
    stem_url (stem_url "anonymisiert-0f3a-17".toList) =
      stem_url "anonymisiert-0f3a-17".toList ∧
    stem_url (stem_url "example.com".toList) =
      stem_url "example.com".toList :=
  ⟨c4_stem_url_idempotent_amended _ (Or.inl (by decide)) (by decide),
   c4_stem_url_idempotent_amended _ (Or.inr (by decide)) (by decide),
   c4_stem_url_idempotent_amended _ (Or.inl (by decide)) (by decide)⟩

/-- **C3.**  In visit aggregation (`visits`), each URL identifier's
`visit_count` is added to its stemmed domain's total exactly once: given
`N ≥ 1` joined visit rows that all carry the same URL identifier `i`
(hence, coming from a join on the `urls` row, the same `url` and
`visit_count`), the resulting dictionary holds that URL's count once, not
`N` times. -/
theorem c3_visits_no_double_count (u : List Char) (c : Int) (i : Nat)
    (rows : List VisitRow) (hall : ∀ r ∈ rows, r = ⟨u, c, i⟩)
    (hne : rows ≠ []) :
    (visitsAgg rows).d = [(stem_url u, c)] := by
  match rows, hne with
  | r :: rest, _ =>
    have hr : r = ⟨u, c, i⟩ := hall r (List.mem_cons_self _ _)
    subst hr
    unfold visitsAgg
    rw [List.foldl_cons]
    have hstep : visitsStep ⟨[], []⟩ ⟨u, c, i⟩ = ⟨[(stem_url u, c)], [i]⟩ := by
      simp [visitsStep]
    rw [hstep]
    rw [foldl_visitsStep_stable u c i rest
      (fun q hq => hall q (List.mem_cons_of_mem _ hq)) _ (by simp) (by simp)]

/-- Witness for C3: three identical joined rows for URL identifier 1
contribute the visit count 4 once, not three times. -/
theorem c3_visits_no_double_count_witness :
    (visitsAgg (List.replicate 3 ⟨"http://www.a.ch/p".toList, 4, 1⟩)).d =
      [("a.ch".toList, 4)] := by
  rw [c3_visits_no_double_count "http://www.a.ch/p".toList 4 1 _
    (fun r hr => List.eq_of_mem_replicate hr) (by decide)]
  decide

/-- **C10.**  The percentage-share computation of `visits` divides by the
grand total unconditionally: with at least one joined visit row and every
counted `visit_count` equal to zero the grand total is 0 and the division
fails (`none` = `ZeroDivisionError`); under the precondition that some
counted `visit_count` is positive (and none negative) the division is
safe. -/
theorem c10_visits_division_by_zero (rows : List VisitRow) :
    (rows ≠ [] → (∀ r ∈ rows, r.visit_count = 0) → visitsPerc rows = none) ∧
    ((∀ r ∈ rows, 0 ≤ r.visit_count) →
      (∃ x ∈ countedCounts [] rows, 0 < x) →
      (visitsPerc rows).isSome = true) := by
  constructor
  · intro hne hz
    have hdne := visitsAgg_d_ne_nil hne
    have hz' : ∀ p ∈ (visitsAgg rows).d, p.2 = 0 :=
      foldl_values_zero hz (by simp)
    have htot : (((visitsAgg rows).d.map (fun p => p.2)).sum : Int) = 0 := by
      apply List.sum_eq_zero
      intro x hx
      obtain ⟨p, hp, rfl⟩ := List.mem_map.mp hx
      exact hz' p hp
    unfold visitsPerc
    rw [if_neg hdne, if_pos htot]
  · intro hpos hex
    obtain ⟨x, hx, hxpos⟩ := hex
    have htot := visits_total_ge_counted rows ⟨[], []⟩ hpos
    have hcnt : ∀ z ∈ countedCounts [] rows, (0 : Int) ≤ z := by
      intro z hz
      obtain ⟨r, hr, hrz⟩ := countedCounts_mem [] z hz
      rw [← hrz]
      exact hpos r hr
    have hsum : 0 < (countedCounts [] rows).sum := sum_pos_of_mem_pos hcnt hx hxpos
    have htotpos : 0 < totalOf (visitsAgg rows) := by
      have h0 : totalOf (⟨[], []⟩ : AggState) = 0 := rfl
      unfold visitsAgg
      rw [h0] at htot
      simpa using lt_of_lt_of_le hsum (by simpa using htot)
    unfold visitsPerc
    by_cases hd : (visitsAgg rows).d = []
    · rw [if_pos hd]
      rfl
    · rw [if_neg hd, if_neg (by exact ne_of_gt htotpos)]
      rfl

/-- **C2.**  In the binary indexed-database extractor
(`_extract_webcachev01_dat`), all records sharing one recovered URL
collapse into a single canonical URL row whose access count is the first
sighting's count plus every later sighting's count that is strictly
positive (zero or negative later counts are ignored; the first sighting's
count is stored unconditionally). -/
theorem c2_webcache_duplicate_collapse (u : List Char) (minD : ℚ)
    (r0 : WebRecord) (rest : List WebRecord)
    (hall : ∀ r ∈ r0 :: rest, r.recovered = some u ∧
      convert_timestamp (some "IE11") r.raw_time ≥ minD) :
    (wcExtract minD (r0 :: rest)).urls =
      [⟨u, r0.access_count + sumPosCounts rest, r0.redirect_urls, 1⟩] := by
  obtain ⟨hrec, hdate⟩ := hall r0 (List.mem_cons_self _ _)
  unfold wcExtract
  rw [List.foldl_cons]
  have hstep : wcStep minD ⟨[], [], 1⟩ r0 =
      ⟨[⟨u, r0.access_count, r0.redirect_urls, 1⟩],
        [(convert_timestamp (some "IE11") r0.raw_time, 1)], 2⟩ := by
    unfold wcStep
    rw [hrec]
    simp [hdate]
  rw [hstep]
  exact wc_loop_single u minD rest
    (fun q hq => hall q (List.mem_cons_of_mem _ hq)) _ _ _ _ _

/-- Witness for C2, end-to-end scenario B: two records for the same
recovered URL with access counts 3 and 5 yield one canonical URL with
visit count 8. -/
theorem c2_webcache_duplicate_collapse_witness :
    (wcExtract 0 [⟨some "http://ex.ch".toList, 116444736000000000, 3, []⟩,
        ⟨some "http://ex.ch".toList, 116444736000000000, 5, []⟩]).urls =
      [⟨"http://ex.ch".toList, 8, [], 1⟩] := by
  rw [c2_webcache_duplicate_collapse "http://ex.ch".toList 0
    ⟨some "http://ex.ch".toList, 116444736000000000, 3, []⟩
    [⟨some "http://ex.ch".toList, 116444736000000000, 5, []⟩]
    (by
      have hc : convert_timestamp (some "IE11") 116444736000000000 ≥ (0 : ℚ) := by
        have he : convert_timestamp (some "IE11") 116444736000000000 =
            -11644473600 + 116444736000000000 * (1 / 10) / 1000000 := by
          unfold convert_timestamp
          rw [if_neg (by decide), if_pos rfl]
        rw [he]
        norm_num
      intro r hr
      rcases List.mem_cons.mp hr with rfl | hr
      · exact ⟨rfl, hc⟩
      · rcases List.mem_cons.mp hr with rfl | hr
        · exact ⟨rfl, hc⟩
        · simp at hr)]
  decide

/-- **C5** is false as stated in its non-containment part: the synthetic
placeholder `anonymisiert-<digest>-<salt>-<id>` always contains the
letter `a` (inside the literal `anonymisiert`), so for the navigable
stored URL `http://a` with domain `a` the replacement URL *does* contain
the literal domain string, whatever the digest and salt are. -/
theorem c5_update_db_domains_counterexample :
    update_db (fun _ _ => "0f".toList) (fun _ => "9c".toList) (fun u _ => u)
        (fun _ => [1]) (fun _ => []) (.str "a".toList) "domains"
        [⟨1, "http://a".toList, "T".toList, "h".toList, "R".toList⟩] =
      ([⟨1, "anonymisiert-0f-9c-1".toList, "***".toList, "***".toList,
        "***".toList⟩], none) ∧
    containsSub "a".toList "anonymisiert-0f-9c-1".toList = true := by
  constructor <;> decide

/-- **C5 (amended).**  Anonymization with kind `domains`
(`_update_db(x, kind='domains')` for a selected domain key `x` whose
contributing id list is duplicate-free and present in the store): every
row whose id contributes and whose stored URL is navigable gets its URL
replaced by the synthetic placeholder embedding the salted domain hash
and its title, reverse-host and redirect-chain fields blanked to `***`;
rows with a non-navigable stored URL are left unchanged (as is every
non-contributing row); and — amended — the placeholder does not contain
the literal domain string *provided* the domain has at least one
character outside the token alphabet (hex digits, the letters of
`anonymisiert`, and the hyphen), e.g. any domain containing a dot. -/
theorem c5_update_db_domains_blanks (digest : List Char → List Char → List Char)
    (saltF : Nat → List Char) (kwSub : List Char → List Char → List Char)
    (dMap kMap : List Char → List Nat) (s : List Char) (store : List UrlRow)
    (hnd : (store.map UrlRow.id).Nodup) (hids : (dMap s).Nodup)
    (hpres : ∀ i ∈ dMap s, ∃ r ∈ store, r.id = i)
    (hhex : ∀ a b, ∀ c ∈ digest a b, isHexChar c = true)
    (hsalt : ∀ i, ∀ c ∈ saltF i, isHexChar c = true) :
    update_db digest saltF kwSub dMap kMap (.str s) "domains" store =
      (store.map (domainsMutatedRow digest saltF (dMap s)), none) ∧
    (∀ row ∈ store, ∀ host, row.id ∈ dMap s → findHost row.url = some host →
      (domainsMutatedRow digest saltF (dMap s) row).url =
        litAnonym ++ hash_domain digest (saltF row.id) host ++
          '-' :: natChars row.id ∧
      (domainsMutatedRow digest saltF (dMap s) row).title = "***".toList ∧
      (domainsMutatedRow digest saltF (dMap s) row).rev_host = "***".toList ∧
      (domainsMutatedRow digest saltF (dMap s) row).redirect_urls =
        "***".toList ∧
      ((∃ c ∈ host, tokenChar c = false) →
        containsSub host (domainsMutatedRow digest saltF (dMap s) row).url =
          false)) ∧
    (∀ row ∈ store, findHost row.url = none →
      domainsMutatedRow digest saltF (dMap s) row = row) := by
  refine ⟨?_, ?_, ?_⟩
  · have hred : update_db digest saltF kwSub dMap kMap (.str s) "domains" store =
        mutLoop "domains" digest saltF kwSub (dMap s) store := rfl
    rw [hred]
    exact mutLoop_domains digest saltF kwSub (dMap s) store hnd hids hpres
  · intro row hrow host hmem hh
    rw [domainsMutatedRow_mem_some hmem hh]
    refine ⟨rfl, rfl, rfl, rfl, fun hbad => ?_⟩
    exact token_not_contains
      (domainsToken_chars (hhex (saltF row.id) host) (hsalt row.id)) hbad
  · intro row hrow hh
    exact domainsMutatedRow_none hh digest saltF

/-- Witness for the amended C5: a two-row store in which the selected
domain contributes both ids; the navigable row is blanked and tokenized
(and its domain `ex.ch`, which contains a dot, does not occur in the
token), while the non-navigable row is skipped. -/
theorem c5_update_db_domains_blanks_witness :
    update_db (fun _ _ => "0f3a".toList) (fun _ => "9c".toList) (fun u _ => u)
        (fun _ => [1, 2]) (fun _ => []) (.str "ex.ch".toList) "domains"
        [⟨1, "http://ex.ch/a".toList, "T".toList, "hc.xe.".toList, "R".toList⟩,
         ⟨2, "nourl".toList, "T2".toList, "x".toList, "R2".toList⟩] =
      ([⟨1, "anonymisiert-0f3a-9c-1".toList, "***".toList, "***".toList,
          "***".toList⟩,
        ⟨2, "nourl".toList, "T2".toList, "x".toList, "R2".toList⟩], none) ∧
    containsSub "ex.ch".toList "anonymisiert-0f3a-9c-1".toList = false := by
  have h := (c5_update_db_domains_blanks (fun _ _ => "0f3a".toList)
    (fun _ => "9c".toList) (fun u _ => u) (fun _ => [1, 2]) (fun _ => [])
    "ex.ch".toList
    [⟨1, "http://ex.ch/a".toList, "T".toList, "hc.xe.".toList, "R".toList⟩,
     ⟨2, "nourl".toList, "T2".toList, "x".toList, "R2".toList⟩]
    (by decide) (by decide) (by decide)
    (fun _ _ => (by decide : ∀ c ∈ "0f3a".toList, isHexChar c = true))
    (fun _ => (by decide : ∀ c ∈ "9c".toList, isHexChar c = true))).1
  rw [h]
  constructor <;> decide

/-- **C6** is false in its non-containment part: `_hash_domain` returns
`hexdigest + '-' + salt`, and for a domain made only of hex-alphabet
characters (here the single letter `a`) the token contains the domain
whenever the digest or the salt happens to contain that letter — here a
realistic 32-hex-character uuid salt containing `a`, for every possible
digest value of that call. -/
theorem c6_hash_domain_counterexample :
    containsSub "a".toList
      (hash_domain (fun _ _ =>
          "0123456789abcdef0123456789abcdef0123456789abcdef0123456789abcdef".toList)
        "00112233445566778899aabbccddeeff".toList "a".toList) = true := by
  decide

/-- **C6 (amended).**  Domain hashing appends the per-call salt to the
64-character SHA-256 hex digest, so two calls that draw distinct salts
over the same domain produce two different output tokens (the fresh
`uuid4` salt per call is modelled by the distinct-salts hypothesis); and
— amended — no token contains the original domain string *provided* the
domain has at least one character outside hex digits and the hyphen
(e.g. any domain containing a dot). -/
theorem c6_hash_domain_fresh_salt (digest : List Char → List Char → List Char)
    (s1 s2 dom : List Char) (hne : s1 ≠ s2)
    (hlen1 : (digest s1 dom).length = 64)
    (hlen2 : (digest s2 dom).length = 64)
    (hhex : ∀ c ∈ digest s1 dom, isHexChar c = true)
    (hshex : ∀ c ∈ s1, isHexChar c = true) :
    hash_domain digest s1 dom ≠ hash_domain digest s2 dom ∧
    ((∃ c ∈ dom, (isHexChar c || c == '-') = false) →
      containsSub dom (hash_domain digest s1 dom) = false) := by
  constructor
  · intro heq
    apply hne
    unfold hash_domain at heq
    have h1 := congrArg (List.drop 64) heq
    nth_rewrite 1 [← hlen1] at h1
    rw [List.drop_left] at h1
    nth_rewrite 1 [← hlen2] at h1
    rw [List.drop_left] at h1
    exact (List.cons.injEq _ _ _ _ ▸ h1).2
  · intro hbad
    exact not_contains_of_alphabet (hash_domain_chars hhex hshex) hbad

/-- Witness for the amended C6 at two concrete distinct salts and the
domain `ex.ch` (which contains a dot). -/
theorem c6_hash_domain_fresh_salt_witness :
    hash_domain (fun _ _ =>
        "0123456789abcdef0123456789abcdef0123456789abcdef0123456789abcdef".toList)
      "00112233445566778899aabbccddeeff".toList "ex.ch".toList ≠
    hash_domain (fun _ _ =>
        "0123456789abcdef0123456789abcdef0123456789abcdef0123456789abcdef".toList)
      "ffeeddccbbaa99887766554433221100".toList "ex.ch".toList ∧
    containsSub "ex.ch".toList
      (hash_domain (fun _ _ =>
          "0123456789abcdef0123456789abcdef0123456789abcdef0123456789abcdef".toList)
        "00112233445566778899aabbccddeeff".toList "ex.ch".toList) = false := by
  have h := c6_hash_domain_fresh_salt (fun _ _ =>
      "0123456789abcdef0123456789abcdef0123456789abcdef0123456789abcdef".toList)
    "00112233445566778899aabbccddeeff".toList
    "ffeeddccbbaa99887766554433221100".toList "ex.ch".toList
    (by decide) (by decide) (by decide) (by decide) (by decide)
  exact ⟨h.1, h.2 ⟨'.', by decide, by decide⟩⟩

/-- **C9.**  `_update_db` raises `ValueError` on an argument that is
neither a string nor a list paired with kind `urls` — a list with any
other kind, or a non-string non-list value such as an integer — before
looking up or mutating any row, so the store is returned unchanged on
this error path. -/
theorem c9_update_db_value_error (digest : List Char → List Char → List Char)
    (saltF : Nat → List Char) (kwSub : List Char → List Char → List Char)
    (dMap kMap : List Char → List Nat) (store : List UrlRow)
    (kind : String) (l : List Nat) (hk : kind ≠ "urls") :
    update_db digest saltF kwSub dMap kMap (.ids l) kind store =
      (store, some .valueError) ∧
    update_db digest saltF kwSub dMap kMap .other kind store =
      (store, some .valueError) := by
  refine ⟨?_, rfl⟩
  have hred : update_db digest saltF kwSub dMap kMap (.ids l) kind store =
      if kind = "urls" then mutLoop kind digest saltF kwSub l store
      else (store, some .valueError) := rfl
  rw [hred, if_neg hk]

/-- Witness for C9: a list argument with kind `domains`, and an
other-typed (integer-like) argument. -/
theorem c9_update_db_value_error_witness :
    update_db (fun _ _ => []) (fun _ => []) (fun u _ => u) (fun _ => [])
        (fun _ => []) (.ids [1, 2]) "domains"
        [⟨1, "http://ex.ch".toList, "T".toList, "h".toList, "R".toList⟩] =
      ([⟨1, "http://ex.ch".toList, "T".toList, "h".toList, "R".toList⟩],
        some .valueError) ∧
    update_db (fun _ _ => []) (fun _ => []) (fun u _ => u) (fun _ => [])
        (fun _ => []) .other "keywords"
        [⟨1, "http://ex.ch".toList, "T".toList, "h".toList, "R".toList⟩] =
      ([⟨1, "http://ex.ch".toList, "T".toList, "h".toList, "R".toList⟩],
        some .valueError) :=
  ⟨(c9_update_db_value_error _ _ _ _ _ _ "domains" [1, 2] (by decide)).1,
   (c9_update_db_value_error _ _ _ _ _ _ "keywords" [] (by decide)).2⟩

/-- Witness for C10: a single all-zero row makes the percentage
computation fail, while a positive-count store divides safely. -/
theorem c10_visits_division_by_zero_witness :
    visitsPerc [⟨"http://a.ch".toList, 0, 1⟩] = none ∧
    (visitsPerc [⟨"http://a.ch".toList, 2, 1⟩]).isSome = true :=
  ⟨(c10_visits_division_by_zero [⟨"http://a.ch".toList, 0, 1⟩]).1 (by decide)
      (by intro r hr; simp at hr; rw [hr]),
   (c10_visits_division_by_zero [⟨"http://a.ch".toList, 2, 1⟩]).2
      (by intro r hr; simp at hr; rw [hr]; decide)
      ⟨2, by decide, by decide⟩⟩

/-- **C7** is false in its exclusion part: the relational visits query
filters by date only — it carries no URL predicate — so a visit row whose
joined URL is a local-file-scheme entry does enter the canonical visit
stream (while the same URL is excluded from the urls query by
`NOT REGEXP('^file:', ...)`). -/
theorem c7_file_scheme_visit_counterexample :
    chromeVisitsQuery 0 [⟨1, 1, 11644473600000000⟩] =
      [⟨1, 1, 11644473600000000⟩] ∧
    chromeUrlsQuery 0 [⟨1, "file:///etc/passwd".toList⟩]
      [⟨1, 1, 11644473600000000⟩] = [] ∧
    "file:".toList.isPrefixOf "file:///etc/passwd".toList = true := by
  refine ⟨?_, ?_, ?_⟩ <;> decide

/-- **C7 (amended).**  Every extractor applies the minimum-date cutoff
itself during extraction: every visit surviving a relational visits query
(Chrome, Firefox, Safari) has normalized visit date at or above the
cutoff, and so has every visit emitted by the plist and binary-store
extractors.  The plist extractor also keeps only navigable URLs, and the
relational *urls* query excludes `file:`-scheme entries — but (amended)
the relational *visits* query filters by date only, so file-scheme visit
rows are not excluded from the visit stream.  A relational source with
one visit more than a second above the cutoff and one below it yields
exactly one canonical visit. -/
theorem c7_extractors_cutoff_amended :
    (∀ (minD : ℚ) (rows : List ChromeVisit) (v : ChromeVisit),
      v ∈ chromeVisitsQuery minD rows → 0 ≤ v.visit_time →
      convert_timestamp (some "Chrome") (v.visit_time : ℚ) ≥ minD) ∧
    (∀ (minD : ℚ) (rows : List FirefoxVisit) (v : FirefoxVisit),
      v ∈ firefoxVisitsQuery minD rows → 0 ≤ v.visit_date →
      convert_timestamp (some "Firefox") (v.visit_date : ℚ) ≥ minD) ∧
    (∀ (minD : ℚ) (rows : List SafariVisit) (v : SafariVisit),
      v ∈ safariVisitsQuery minD rows →
      convert_timestamp (some "Safari") v.visit_time ≥ minD) ∧
    (∀ (minD : ℚ) (items : List PlistItem),
      (∀ v ∈ (extract_history_plist minD items).visits, minD ≤ v.2) ∧
      (∀ u ∈ (extract_history_plist minD items).urls,
        (findHost u.url).isSome = true)) ∧
    (∀ (minD : ℚ) (recs : List WebRecord),
      ∀ v ∈ (wcExtract minD recs).visits, minD ≤ v.1) ∧
    (∀ (minD : ℚ) (urls : List ChromeUrl) (visits : List ChromeVisit),
      ∀ p ∈ chromeUrlsQuery minD urls visits,
        "file:".toList.isPrefixOf p.1.url = false) ∧
    (∀ (minD : ℚ) (v1 v2 : ChromeVisit), 0 ≤ v1.visit_time →
      convert_timestamp (some "Chrome") (v1.visit_time : ℚ) ≥ minD + 1 →
      convert_timestamp (some "Chrome") (v2.visit_time : ℚ) < minD →
      chromeVisitsQuery minD [v1, v2] = [v1]) := by
  have hchrome : ∀ (minD : ℚ) (t : Int),
      ((t / 1000000 - 11644473600 : Int) : ℚ) ≥ minD →
      convert_timestamp (some "Chrome") (t : ℚ) ≥ minD := by
    intro minD t hcond
    rw [convert_chrome_eq]
    have hle := int_div_le_rat t
    push_cast at hcond
    linarith
  have hchrome' : ∀ (minD : ℚ) (t : Int),
      convert_timestamp (some "Chrome") (t : ℚ) ≥ minD + 1 →
      ((t / 1000000 - 11644473600 : Int) : ℚ) ≥ minD := by
    intro minD t hconv
    rw [convert_chrome_eq] at hconv
    have hgt := rat_lt_int_div_add_one t
    push_cast
    linarith
  have hchrome'' : ∀ (minD : ℚ) (t : Int),
      convert_timestamp (some "Chrome") (t : ℚ) < minD →
      ¬ (((t / 1000000 - 11644473600 : Int) : ℚ) ≥ minD) := by
    intro minD t hconv
    rw [convert_chrome_eq] at hconv
    have hle := int_div_le_rat t
    push_cast
    intro hge
    linarith
  refine ⟨?_, ?_, ?_, extract_history_plist_invariants, wcExtract_visits_cutoff,
    ?_, ?_⟩
  · intro minD rows v hv ht
    have hcond := (List.mem_filter.mp hv).2
    rw [decide_eq_true_eq] at hcond
    exact hchrome minD v.visit_time hcond
  · intro minD rows v hv ht
    have hcond := (List.mem_filter.mp hv).2
    rw [decide_eq_true_eq] at hcond
    rw [convert_firefox_eq]
    have hle := int_div_le_rat v.visit_date
    linarith
  · intro minD rows v hv
    have hcond := (List.mem_filter.mp hv).2
    rw [decide_eq_true_eq] at hcond
    rw [convert_safari_eq]
    linarith
  · intro minD urls visits p hp
    have hcond := (List.mem_filter.mp hp).2
    simp only [Bool.and_eq_true, Bool.not_eq_true'] at hcond
    exact hcond.2
  · intro minD v1 v2 h1 hconv1 hconv2
    have hc1 := hchrome' minD v1.visit_time hconv1
    have hc2 := hchrome'' minD v2.visit_time hconv2
    unfold chromeVisitsQuery
    rw [List.filter_cons_of_pos (by rw [decide_eq_true_eq]; exact hc1)]
    rw [List.filter_cons_of_neg (by rw [decide_eq_true_eq] at *; simpa using hc2)]
    rfl

/-- Witness for the amended C7: scenario A with cutoff 0, one visit two
seconds above the 1970 cutoff and one at the 1601 origin (far below)
yields exactly the first visit. -/
theorem c7_extractors_cutoff_amended_witness :
    chromeVisitsQuery 0 [⟨1, 1, 11644473602000000⟩, ⟨2, 1, 0⟩] =
      [⟨1, 1, 11644473602000000⟩] := by
  refine c7_extractors_cutoff_amended.2.2.2.2.2.2 0
    ⟨1, 1, 11644473602000000⟩ ⟨2, 1, 0⟩ (by decide) ?_ ?_
  · rw [convert_chrome_eq]
    norm_num
  · rw [convert_chrome_eq]
    norm_num

/-- **C8.**  Canonical store writes are duplicate-safe and idempotent
within a run: with "insert, ignore on duplicate primary key" semantics,
replaying the same record stream over the table it produced changes
nothing — in particular, importing the same source twice in one run does
not increase the row count (of the urls or visits table; the primary key
is abstracted as an arbitrary key function, the canonical schema not
being part of src/). -/
theorem c8_insert_or_ignore_idempotent {α κ : Type} [DecidableEq κ]
    (key : α → κ) (table : List α) (rows : List α) :
    insertMany key (insertMany key table rows) rows =
      insertMany key table rows ∧
    (insertMany key (insertMany key table rows) rows).length =
      (insertMany key table rows).length := by
  have h : insertMany key (insertMany key table rows) rows =
      insertMany key table rows :=
    insertMany_of_all_present rows _
      (fun r hr => insertMany_keys_present rows table r hr)
  exact ⟨h, by rw [h]⟩

/-- Witness for C8 (the instance binder made concrete): replaying three
url rows, one a duplicate id, leaves the two-row table unchanged. -/
theorem c8_insert_or_ignore_idempotent_witness :
    insertMany UrlRow.id
      (insertMany UrlRow.id []
        [⟨1, "http://a.ch".toList, [], [], []⟩,
         ⟨1, "http://a.ch".toList, [], [], []⟩,
         ⟨2, "http://b.ch".toList, [], [], []⟩])
      [⟨1, "http://a.ch".toList, [], [], []⟩,
       ⟨1, "http://a.ch".toList, [], [], []⟩,
       ⟨2, "http://b.ch".toList, [], [], []⟩] =
    insertMany UrlRow.id []
      [⟨1, "http://a.ch".toList, [], [], []⟩,
       ⟨1, "http://a.ch".toList, [], [], []⟩,
       ⟨2, "http://b.ch".toList, [], [], []⟩] :=
  (c8_insert_or_ignore_idempotent UrlRow.id []
    [⟨1, "http://a.ch".toList, [], [], []⟩,
     ⟨1, "http://a.ch".toList, [], [], []⟩,
     ⟨2, "http://b.ch".toList, [], [], []⟩]).1

end Claims
